import Mathlib

/-!
Shallow embedding of `src/app.py` (a synthetic profiling workload) and
verification of its specification claims.

Python integers are modelled as `Int` (or `Nat` where the source value is
a non-negative count), Python lists as `List`, Python floats as exact
numbers (`ℚ`/`ℝ`), `random.random()` / `random.randint` outcomes as
explicit function parameters, and fallible list indexing as `Option`.
-/

namespace App

/-- Embedding of `fibonacci_recursive` (src/app.py:14-18):
`if n <= 1: return n` else the sum of the two preceding calls. -/
def fibonacci_recursive (n : Int) : Int :=
  if n ≤ 1 then n
  else fibonacci_recursive (n - 1) + fibonacci_recursive (n - 2)
termination_by n.toNat
decreasing_by
  all_goals omega

/-- Association-list lookup used to model the `functools.lru_cache`
dictionary of `fibonacci_cached`: the cache maps an argument to the
stored result. -/
def cacheFind (n : Int) : List (Int × Int) → Option Int
  | [] => none
  | (k, v) :: rest => if k = n then some v else cacheFind n rest

/-- Embedding of `fibonacci_cached` (src/app.py:21-26) with the
`lru_cache(maxsize=None)` state passed explicitly: on a hit the cached
value is returned and the cache is unchanged; on a miss the body runs
(`if n <= 1: return n` else the sum of the two recursive calls, each
threading the cache) and the result is recorded before returning. -/
def fibonacci_cached (cache : List (Int × Int)) (n : Int) : Int × List (Int × Int) :=
  match cacheFind n cache with
  | some v => (v, cache)
  | none =>
    if n ≤ 1 then (n, (n, n) :: cache)
    else
      let r1 := fibonacci_cached cache (n - 1)
      let r2 := fibonacci_cached r1.2 (n - 2)
      (r1.1 + r2.1, (n, r1.1 + r2.1) :: r2.2)
termination_by n.toNat
decreasing_by
  all_goals omega

/-- The state of the memoization cache after a sequence of calls
`fibonacci_cached(n)` for `n ∈ ns`, starting from the empty cache of
process start. -/
def runCalls (ns : List Int) : List (Int × Int) :=
  ns.foldl (fun c n => (fibonacci_cached c n).2) []

/-- Every cache entry stores the mathematically correct value. -/
def CacheCorrect (c : List (Int × Int)) : Prop :=
  ∀ p ∈ c, p.2 = fibonacci_recursive p.1

/-- The cache holds an entry for key `k`. -/
def cacheHas (c : List (Int × Int)) (k : Int) : Prop :=
  ∃ v, cacheFind k c = some v

/-- Downward closure of the cache's key set above `2`: whenever a key
`k ≥ 2` is present, every key of `[0, k]` is present.  This is the
invariant that the recursive filling of the memoization cache maintains. -/
def Closed (c : List (Int × Int)) : Prop :=
  ∀ k : Int, 2 ≤ k → cacheHas c k → ∀ j : Int, 0 ≤ j → j ≤ k → cacheHas c j

/-- Python list assignment `l[i] = b`: in-place update when the index is
in range, `IndexError` (modelled as `none`) otherwise.  Negative indices
never occur in this program. -/
def listSet (l : List Bool) (i : Nat) (b : Bool) : Option (List Bool) :=
  if i < l.length then some (l.set i b) else none

/-- Python `range(a, b)`. -/
def pyRange (a b : Nat) : List Nat :=
  List.range' a (b - a)

/-- Python `range(a, b, step)` for a positive step: the elements
`a, a + step, …` below `b`. -/
def pyRangeStep (a b step : Nat) : List Nat :=
  List.range' a ((b - a + step - 1) / step) step

/-- Body of the outer sieve loop of `compute_primes`: read `sieve[i]`
(an `IndexError` is `none`), and when the flag is set clear every index
of `range(i*i, limit + 1, i)`. -/
def sieveStepM (limit : Nat) (s : List Bool) (i : Nat) : Option (List Bool) := do
  let b ← s.get? i
  if b then
    (pyRangeStep (i * i) (limit + 1) i).foldlM (fun t j => listSet t j false) s
  else
    pure s

/-- Embedding of `compute_primes` (src/app.py:29-39).  The sieve is a
boolean list of length `limit + 1`; indices `0` and `1` are cleared by
checked assignments (Python raises `IndexError` when `limit = 0` since
`sieve[1]` is out of range); for each `i` in
`range(2, int(math.sqrt(limit)) + 1)` the loop body `sieveStepM` runs;
the result lists the indices whose flag survives, via `enumerate`. -/
def compute_primes (limit : Nat) : Option (List Nat) := do
  let sieve0 := List.replicate (limit + 1) true
  let sieve1 ← listSet sieve0 0 false
  let sieve2 ← listSet sieve1 1 false
  let sieve3 ← (pyRange 2 (Nat.sqrt limit + 1)).foldlM (sieveStepM limit) sieve2
  pure ((sieve3.enum.filter (fun p => p.2)).map (fun p => p.1))

/-- Total counterpart of the inner marking loop of `compute_primes`:
clear every index of `js` in `s`. -/
def markList (s : List Bool) (js : List Nat) : List Bool :=
  js.foldl (fun t j => t.set j false) s

/-- Total counterpart of one outer-loop step of `compute_primes`. -/
def sieveStep (limit : Nat) (s : List Bool) (i : Nat) : List Bool :=
  if s.getD i false then markList s (pyRangeStep (i * i) (limit + 1) i) else s

/-- Total counterpart of the whole sieve loop of `compute_primes`,
defined for `limit ≥ 1` (where no index error occurs). -/
def sieveLoop (limit : Nat) : List Bool :=
  (pyRange 2 (Nat.sqrt limit + 1)).foldl (sieveStep limit)
    (((List.replicate (limit + 1) true).set 0 false).set 1 false)

/-- `k` has no divisor `d` with `2 ≤ d ≤ m` and `d * d ≤ k` (and `k ≥ 2`):
the sieve invariant after the outer loop has processed `2, …, m`. -/
def NoBad (m k : Nat) : Prop :=
  2 ≤ k ∧ ∀ d, 2 ≤ d → d ≤ m → d ∣ k → ¬ d * d ≤ k

/-- Embedding of `matrix_multiplication` (src/app.py:42-53).  The
`random.random()` draws are the explicit stream `rand` (exact numbers in
place of floats), consumed row-major: `matrix_a[i][j] = rand (i*size+j)`,
then `matrix_b[i][j] = rand (size*size + i*size+j)`.  `result` starts as
zeros and cell `(i, j)` is accumulated over `k` by
`result[i][j] += matrix_a[i][k] * matrix_b[k][j]`; since each cell is
touched only in its own `(i, j)` iteration, the in-place accumulation is
rendered as a per-cell left fold starting from `0`. -/
def matrix_multiplication (size : Nat) (rand : Nat → ℚ) : List (List ℚ) :=
  let matrix_a := (List.range size).map fun i =>
    (List.range size).map fun j => rand (i * size + j)
  let matrix_b := (List.range size).map fun i =>
    (List.range size).map fun j => rand (size * size + i * size + j)
  (List.range size).map fun i =>
    (List.range size).map fun j =>
      (List.range size).foldl
        (fun acc k => acc + (matrix_a.getD i []).getD k 0 * (matrix_b.getD k []).getD j 0) 0

/-- Embedding of `cpu_intensive_loop` (src/app.py:132-137), generalized
to an arbitrary iteration count (the source uses `range(1000000)`): the
float accumulation is modelled over `ℝ`. -/
noncomputable def cpu_intensive_loop (count : Nat) : ℝ :=
  (List.range count).foldl
    (fun result i => result + Real.sqrt i * Real.sin i * Real.cos i) 0

/-- Values of Python's `json` data model that this program produces:
(non-float) numbers, strings, arrays, objects with string keys in
insertion order. -/
inductive Json where
  | num (n : Int)
  | str (s : String)
  | arr (elems : List Json)
  | obj (fields : List (String × Json))

/-- Decimal digits of `n`, most significant first: the model of Python's
`str(i)` for a non-negative integer. -/
def natChars (n : Nat) : List Char :=
  if _h : n < 10 then [Nat.digitChar n]
  else natChars (n / 10) ++ [Nat.digitChar (n % 10)]
decreasing_by
  exact Nat.div_lt_self (by omega) (by norm_num)

/-- Python `repr` of an integer. -/
def intChars (n : Int) : List Char :=
  if n < 0 then '-' :: natChars (-n).toNat else natChars n.toNat

/-- `json.dumps` output for a string none of whose characters needs
escaping (the only kind this program produces): the raw characters in
double quotes. -/
def strChars (s : String) : List Char :=
  '"' :: s.data ++ ['"']

mutual

/-- Characters of `json.dumps` with its default separators `", "` and
`": "`. -/
def jsonChars : Json → List Char
  | .num n => intChars n
  | .str s => strChars s
  | .arr [] => ['[', ']']
  | .arr (e :: es) => '[' :: (jsonChars e ++ arrRest es) ++ [']']
  | .obj [] => ['\x7b', '\x7d']
  | .obj (f :: fs) => '\x7b' :: (fieldChars f ++ objRest fs) ++ ['\x7d']

/-- One `"key": value` pair of an object. -/
def fieldChars : String × Json → List Char
  | (k, v) => strChars k ++ ':' :: ' ' :: jsonChars v

/-- The remaining elements of an array, each preceded by `", "`. -/
def arrRest : List Json → List Char
  | [] => []
  | e :: es => ',' :: ' ' :: (jsonChars e ++ arrRest es)

/-- The remaining fields of an object, each preceded by `", "`. -/
def objRest : List (String × Json) → List Char
  | [] => []
  | f :: fs => ',' :: ' ' :: (fieldChars f ++ objRest fs)

end

/-- `json.dumps(data)`. -/
def dumps (v : Json) : String :=
  String.mk (jsonChars v)

mutual

/-- Fuel bound for the parser: enough recursion budget to parse the
printed value. -/
def jsonSize : Json → Nat
  | .num _ => 1
  | .str _ => 1
  | .arr es => 2 + arrSize es
  | .obj fs => 2 + objSize fs

def arrSize : List Json → Nat
  | [] => 1
  | e :: es => 1 + jsonSize e + arrSize es

def objSize : List (String × Json) → Nat
  | [] => 1
  | f :: fs => 3 + jsonSize f.2 + objSize fs

end

/-- JSON whitespace. -/
def isWs (c : Char) : Bool :=
  c = ' ' || c = '\t' || c = '\n' || c = '\r'

/-- Drop leading whitespace. -/
def skipWs : List Char → List Char
  | [] => []
  | c :: cs => if isWs c then skipWs cs else c :: cs

/-- Consume a maximal run of decimal digits, accumulating their value. -/
def parseDigits : List Char → Nat → Nat × List Char
  | [], acc => (acc, [])
  | c :: cs, acc =>
    if c.isDigit then parseDigits cs (acc * 10 + (c.toNat - 48))
    else (acc, c :: cs)

/-- Read the body of a string literal up to the closing quote.  An
escape (`\`) is outside the fragment this program produces and makes the
model reject. -/
def parseStrBody : List Char → Option (List Char × List Char)
  | [] => none
  | c :: cs =>
    if c = '"' then some ([], cs)
    else if c = '\\' then none
    else (parseStrBody cs).map fun r => (c :: r.1, r.2)

/-- A negative number literal: a digit must follow the minus sign. -/
def parseNeg : List Char → Option (Json × List Char)
  | [] => none
  | d :: rest =>
    if d.isDigit then
      let r := parseDigits rest (d.toNat - 48)
      some (.num (-(r.1 : Int)), r.2)
    else none

mutual

/-- Recursive-descent model of `json.loads` on the fragment this program
produces, with explicit fuel (each step of descent spends one unit). -/
def parseVal : Nat → List Char → Option (Json × List Char)
  | 0, _ => none
  | fuel + 1, cs =>
    match skipWs cs with
    | [] => none
    | c :: cs' =>
      if c = '"' then
        (parseStrBody cs').map fun r => (.str (String.mk r.1), r.2)
      else if c = '[' then parseArrStart fuel (skipWs cs')
      else if c = '\x7b' then parseObjStart fuel (skipWs cs')
      else if c = '-' then parseNeg cs'
      else if c.isDigit then
        let r := parseDigits cs' (c.toNat - 48)
        some (.num (r.1 : Int), r.2)
      else none

/-- Directly after `[` (whitespace skipped): `]` closes the empty array,
anything else must be the first element. -/
def parseArrStart : Nat → List Char → Option (Json × List Char)
  | 0, _ => none
  | fuel + 1, cs =>
    match cs with
    | [] => none
    | c :: cs' =>
      if c = ']' then some (.arr [], cs')
      else
        (parseVal fuel (c :: cs')).bind fun r =>
          (parseArrRest fuel r.2).map fun r' => (.arr (r.1 :: r'.1), r'.2)

/-- After one array element: `]` closes the array, `,` precedes the next
element. -/
def parseArrRest : Nat → List Char → Option (List Json × List Char)
  | 0, _ => none
  | fuel + 1, cs =>
    match skipWs cs with
    | [] => none
    | c :: cs' =>
      if c = ']' then some ([], cs')
      else if c = ',' then
        (parseVal fuel cs').bind fun r =>
          (parseArrRest fuel r.2).map fun r' => (r.1 :: r'.1, r'.2)
      else none

/-- Directly after an opening brace (whitespace skipped): a closing
brace ends the empty object, anything else must be the first field. -/
def parseObjStart : Nat → List Char → Option (Json × List Char)
  | 0, _ => none
  | fuel + 1, cs =>
    match cs with
    | [] => none
    | c :: cs' =>
      if c = '\x7d' then some (.obj [], cs')
      else
        (parseField fuel (c :: cs')).bind fun r =>
          (parseObjRest fuel r.2).map fun r' => (.obj (r.1 :: r'.1), r'.2)

/-- One `"key": value` pair of an object. -/
def parseField : Nat → List Char → Option ((String × Json) × List Char)
  | 0, _ => none
  | fuel + 1, cs =>
    match skipWs cs with
    | [] => none
    | c :: cs' =>
      if c = '"' then
        (parseStrBody cs').bind fun rk =>
          (parseColonVal fuel (skipWs rk.2)).map fun rv =>
            ((String.mk rk.1, rv.1), rv.2)
      else none

/-- The `: value` part of a field (whitespace before `:` skipped). -/
def parseColonVal : Nat → List Char → Option (Json × List Char)
  | 0, _ => none
  | fuel + 1, cs =>
    match cs with
    | [] => none
    | c :: cs' =>
      if c = ':' then parseVal fuel cs'
      else none

/-- After one object field: the closing brace ends the object, `,`
precedes the next field. -/
def parseObjRest : Nat → List Char → Option (List (String × Json) × List Char)
  | 0, _ => none
  | fuel + 1, cs =>
    match skipWs cs with
    | [] => none
    | c :: cs' =>
      if c = '\x7d' then some ([], cs')
      else if c = ',' then
        (parseField fuel cs').bind fun r =>
          (parseObjRest fuel r.2).map fun r' => (r.1 :: r'.1, r'.2)
      else none

end

/-- `json.loads(s)`: parse one value, then require only trailing
whitespace.  (The recursion budget passed to `parseVal` is an artifact
of the embedding; `2·|s| + 2` is enough for any value whose printed form
is `s`.) -/
def loads (s : String) : Option Json :=
  match parseVal (2 * s.data.length + 2) s.data with
  | some (v, rest) => if (skipWs rest).isEmpty then some v else none
  | none => none

/-- A character that `json.dumps` emits literally inside a string
(no escaping needed). -/
def SafeChar (c : Char) : Prop :=
  c ≠ '"' ∧ c ≠ '\\'

instance : DecidablePred SafeChar :=
  fun c => inferInstanceAs (Decidable (c ≠ '"' ∧ c ≠ '\\'))

/-- The JSON values whose strings need no escaping: everything this
program serializes. -/
inductive JsonWF : Json → Prop where
  | num (n : Int) : JsonWF (.num n)
  | str (s : String) : (∀ c ∈ s.data, SafeChar c) → JsonWF (.str s)
  | arr (es : List Json) : (∀ e ∈ es, JsonWF e) → JsonWF (.arr es)
  | obj (fs : List (String × Json)) :
      (∀ f ∈ fs, ∀ c ∈ f.1.data, SafeChar c) →
      (∀ f ∈ fs, JsonWF f.2) → JsonWF (.obj fs)

/-- When the value is a bare number, the following characters must not
begin with a digit (otherwise the parse would swallow them). -/
def NumFollow (v : Json) (rest : List Char) : Prop :=
  ∀ n : Int, v = .num n → ∀ c, rest.head? = some c → c.isDigit = false

/-- One synthetic user record of `json_processing`
(src/app.py:72-82). -/
structure UserRecord where
  id : Nat
  name : String
  email : String
  scores : List Int

/-- `f"User_{i}"`. -/
def mkName (i : Nat) : String :=
  "User_" ++ String.mk (natChars i)

/-- `f"user{i}@example.com"`. -/
def mkEmail (i : Nat) : String :=
  "user" ++ String.mk (natChars i) ++ "@example.com"

/-- The 1000 synthetic records; the `random.randint(0, 100)` draws are
the explicit function `scores` (record index, draw index). -/
def mkUsers (scores : Nat → Nat → Int) : List UserRecord :=
  (List.range 1000).map fun i =>
    ⟨i, mkName i, mkEmail i, (List.range 10).map fun j => scores i j⟩

/-- The JSON value of one record, fields in insertion order. -/
def recordJson (u : UserRecord) : Json :=
  .obj [("id", .num u.id), ("name", .str u.name), ("email", .str u.email),
        ("scores", .arr (u.scores.map fun s => .num s))]

/-- The JSON value of the whole collection `{"users": [...]}`. -/
def dataJson (scores : Nat → Nat → Int) : Json :=
  .obj [("users", .arr ((mkUsers scores).map recordJson))]

/-- Embedding of `json_processing` (src/app.py:70-89): build the
collection, serialize and parse it back 10 times discarding the results,
and return `len(data["users"])`. -/
def json_processing (scores : Nat → Nat → Int) : Nat :=
  let users := (mkUsers scores).map recordJson
  let data : Json := .obj [("users", .arr users)]
  let _roundTrips := (List.range 10).map fun _ => loads (dumps data)
  users.length

/-- Observable events of the driver: a printed line, a call to one of
the workload routines, or the final elapsed-time line (whose text
depends on the wall clock and is abstracted). -/
inductive Event where
  | msg (line : String)
  | fibonacciCall (n : Int)
  | primesCall (limit : Nat)
  | matmulCall (size : Nat)
  | stringCall
  | jsonCall
  | ioCall
  | cpuLoopCall
  | elapsedMsg
deriving DecidableEq

/-- The values `fib_results` collects in `mixed_workload`. -/
def fibResults : List Int :=
  (List.range 5).map fun i => fibonacci_recursive (20 + (i : Int))

/-- The summary line of `mixed_workload`, with the interpolated counts
(`len(primes)` for `compute_primes(10000)` and `len(fib_results)`). -/
def summaryLine : String :=
  "Workload complete! Processed " ++ toString ((compute_primes 10000).getD []).length ++
    " primes, " ++ toString fibResults.length ++ " fibonacci numbers, and more."

/-- Trace of `mixed_workload` (src/app.py:98-129): each printed line and
each routine invocation, in program order. -/
def mixed_workload_trace : List Event :=
  [.msg "Starting mixed workload...",
   .msg "  Computing Fibonacci numbers..."]
  ++ (List.range 5).map (fun i => Event.fibonacciCall (20 + (i : Int)))
  ++ [.msg "  Computing prime numbers...",
      .primesCall 10000,
      .msg "  Performing matrix multiplication...",
      .matmulCall 50,
      .msg "  Processing strings...",
      .stringCall,
      .msg "  Processing JSON data...",
      .jsonCall,
      .msg "  Simulating I/O operations...",
      .ioCall,
      .msg summaryLine]

/-- `iterations = 3` in `main`. -/
def iterations : Nat := 3

/-- Trace of `main` (src/app.py:140-163): the banner, then `iterations`
repetitions of the mixed workload followed by one `cpu_intensive_loop`
invocation, then the closing banner with the elapsed-time line. -/
def main_trace : List Event :=
  [.msg (String.mk (List.replicate 60 '=')),
   .msg "FLAMEGRAPH PROFILING DEMO APPLICATION",
   .msg (String.mk (List.replicate 60 '=')),
   .msg "",
   .msg ("Running " ++ toString iterations ++ " iterations of mixed workload...\n")]
  ++ (List.range iterations).flatMap (fun i =>
      [Event.msg ("\n--- Iteration " ++ toString (i + 1) ++ "/" ++ toString iterations ++ " ---")]
      ++ mixed_workload_trace
      ++ [Event.msg "  Running CPU intensive calculations...",
          Event.cpuLoopCall])
  ++ [.msg ("\n" ++ String.mk (List.replicate 60 '=')),
      .elapsedMsg,
      .msg (String.mk (List.replicate 60 '='))]

end App

namespace App

/-- Structural-recursion version of the Fibonacci recurrence on `Nat`,
used to evaluate `fibonacci_recursive` on concrete inputs (the
well-founded definition does not reduce definitionally). -/
def fibAux : Nat → Int
  | 0 => 0
  | 1 => 1
  | n + 2 => fibAux (n + 1) + fibAux n

theorem fibonacci_recursive_base {n : Int} (h : n ≤ 1) : fibonacci_recursive n = n := by
  rw [fibonacci_recursive]
  simp [h]

theorem fibonacci_recursive_step {n : Int} (h : ¬ n ≤ 1) :
    fibonacci_recursive n = fibonacci_recursive (n - 1) + fibonacci_recursive (n - 2) := by
  rw [fibonacci_recursive]
  simp [h]

theorem fibonacci_recursive_eq_fibAux (n : Int) (h : 0 ≤ n) :
    fibonacci_recursive n = fibAux n.toNat := by
  obtain ⟨m, hn⟩ : ∃ m, n.toNat = m := ⟨_, rfl⟩
  induction m using Nat.strong_induction_on generalizing n with
  | _ m ih =>
    match m, hn with
    | 0, hn =>
      rw [fibonacci_recursive_base (by omega), hn, fibAux]
      omega
    | 1, hn =>
      rw [fibonacci_recursive_base (by omega), hn, fibAux]
      omega
    | k + 2, hn =>
      rw [fibonacci_recursive_step (by omega), hn, fibAux,
        ih (k + 1) (by omega) (n - 1) (by omega) (by omega),
        ih k (by omega) (n - 2) (by omega) (by omega),
        show (n - 1).toNat = k + 1 by omega, show (n - 2).toNat = k by omega]

example : fibonacci_recursive 10 = 55 := by
  rw [fibonacci_recursive_eq_fibAux 10 (by norm_num)]
  decide

theorem cacheFind_mem {n v : Int} : ∀ {c : List (Int × Int)},
    cacheFind n c = some v → (n, v) ∈ c := by
  intro c
  induction c with
  | nil => intro h; exact absurd h (by simp [cacheFind])
  | cons p rest ih =>
    obtain ⟨a, b⟩ := p
    intro h
    rw [cacheFind] at h
    by_cases hk : a = n
    · simp only [hk, if_true, Option.some.injEq] at h
      subst hk
      subst h
      exact List.mem_cons_self _ _
    · simp only [hk, if_false] at h
      exact List.mem_cons_of_mem _ (ih h)

theorem fib_cached_correct_aux (m : Nat) : ∀ n : Int, n.toNat = m →
    ∀ c, CacheCorrect c →
      (fibonacci_cached c n).1 = fibonacci_recursive n ∧
        CacheCorrect (fibonacci_cached c n).2 := by
  induction m using Nat.strong_induction_on with
  | _ m ih =>
    intro n hn c hc
    rw [fibonacci_cached]
    cases hfind : cacheFind n c with
    | some v =>
      exact ⟨hc _ (cacheFind_mem hfind), hc⟩
    | none =>
      by_cases hb : n ≤ 1
      · simp only [hb, if_true]
        refine ⟨(fibonacci_recursive_base hb).symm, ?_⟩
        intro p hp
        rcases List.mem_cons.mp hp with rfl | hp
        · exact (fibonacci_recursive_base hb).symm
        · exact hc p hp
      · simp only [hb, if_false]
        obtain ⟨e1, hc1⟩ := ih (n - 1).toNat (by omega) (n - 1) rfl c hc
        obtain ⟨e2, hc2⟩ := ih (n - 2).toNat (by omega) (n - 2) rfl _ hc1
        refine ⟨?_, ?_⟩
        · rw [e1, e2, fibonacci_recursive_step hb]
        · intro p hp
          rcases List.mem_cons.mp hp with rfl | hp
          · simp only
            rw [e1, e2, fibonacci_recursive_step hb]
          · exact hc2 p hp

/-- The value returned by the memoized function is the value of the plain
recursive function, and the cache stays correct, whenever the starting
cache is correct. -/
theorem fib_cached_correct (c : List (Int × Int)) (n : Int) (hc : CacheCorrect c) :
    (fibonacci_cached c n).1 = fibonacci_recursive n ∧
      CacheCorrect (fibonacci_cached c n).2 :=
  fib_cached_correct_aux n.toNat n rfl c hc

theorem fib_cached_preserved_aux (m : Nat) : ∀ n : Int, n.toNat = m →
    ∀ c k v, cacheFind k c = some v →
      cacheFind k (fibonacci_cached c n).2 = some v := by
  induction m using Nat.strong_induction_on with
  | _ m ih =>
    intro n hn c k v hk
    rw [fibonacci_cached]
    cases hfind : cacheFind n c with
    | some w => exact hk
    | none =>
      by_cases hb : n ≤ 1
      · simp only [hb, if_true]
        rw [cacheFind]
        have hnk : ¬ n = k := fun h => by rw [h, hk] at hfind; exact Option.noConfusion hfind
        simp only [hnk, if_false]
        exact hk
      · simp only [hb, if_false]
        rw [cacheFind]
        have hnk : ¬ n = k := fun h => by rw [h, hk] at hfind; exact Option.noConfusion hfind
        simp only [hnk, if_false]
        exact ih (n - 2).toNat (by omega) (n - 2) rfl _ k v
          (ih (n - 1).toNat (by omega) (n - 1) rfl c k v hk)

/-- No cache entry is ever removed or overwritten: a key-value pair visible
before a call to the memoized function is visible, with the same value,
after it. -/
theorem fib_cached_preserved (c : List (Int × Int)) (n k v : Int)
    (hk : cacheFind k c = some v) :
    cacheFind k (fibonacci_cached c n).2 = some v :=
  fib_cached_preserved_aux n.toNat n rfl c k v hk

theorem cacheHas_cons {c : List (Int × Int)} {j : Int} (p : Int × Int)
    (h : cacheHas c j) : cacheHas (p :: c) j := by
  obtain ⟨a, b⟩ := p
  obtain ⟨v, hv⟩ := h
  by_cases hj : a = j
  · exact ⟨b, by rw [cacheFind, if_pos hj]⟩
  · exact ⟨v, by rw [cacheFind, if_neg hj]; exact hv⟩

theorem cacheHas_preserved {c : List (Int × Int)} {k : Int} (n : Int)
    (h : cacheHas c k) : cacheHas (fibonacci_cached c n).2 k := by
  obtain ⟨v, hv⟩ := h
  exact ⟨v, fib_cached_preserved c n k v hv⟩

/-- Every call records an entry for its own argument (or finds one
already there). -/
theorem fib_cached_has_self (c : List (Int × Int)) (n : Int) :
    cacheHas (fibonacci_cached c n).2 n := by
  rw [fibonacci_cached]
  cases hfind : cacheFind n c with
  | some v => exact ⟨v, hfind⟩
  | none =>
    by_cases hb : n ≤ 1
    · simp only [hb, if_true]
      exact ⟨n, by rw [cacheFind, if_pos rfl]⟩
    · simp only [hb, if_false]
      exact ⟨_, by rw [cacheFind, if_pos rfl]⟩

theorem fib_cached_closed_aux (m : Nat) : ∀ n : Int, n.toNat = m →
    ∀ c, Closed c →
      Closed (fibonacci_cached c n).2 ∧
        (2 ≤ n → ∀ j : Int, 0 ≤ j → j ≤ n → cacheHas (fibonacci_cached c n).2 j) := by
  induction m using Nat.strong_induction_on with
  | _ m ih =>
    intro n hn c hcl
    rw [fibonacci_cached]
    cases hfind : cacheFind n c with
    | some v =>
      exact ⟨hcl, fun h2 j hj0 hjn => hcl n h2 ⟨v, hfind⟩ j hj0 hjn⟩
    | none =>
      by_cases hb : n ≤ 1
      · simp only [hb, if_true]
        refine ⟨?_, fun h2 => absurd h2 (by omega)⟩
        intro k hk2 hhk j hj0 hjk
        obtain ⟨w, hw⟩ := hhk
        rw [cacheFind] at hw
        by_cases hnk : n = k
        · exact absurd hk2 (by omega)
        · rw [if_neg hnk] at hw
          exact cacheHas_cons _ (hcl k hk2 ⟨w, hw⟩ j hj0 hjk)
      · simp only [hb, if_false]
        obtain ⟨hcl1, hcov1⟩ := ih (n - 1).toNat (by omega) (n - 1) rfl c hcl
        obtain ⟨hcl2, _⟩ := ih (n - 2).toNat (by omega) (n - 2) rfl _ hcl1
        have hcov : ∀ j : Int, 0 ≤ j → j ≤ n →
            cacheHas ((n, (fibonacci_cached c (n - 1)).1 +
                (fibonacci_cached (fibonacci_cached c (n - 1)).2 (n - 2)).1) ::
              (fibonacci_cached (fibonacci_cached c (n - 1)).2 (n - 2)).2) j := by
          intro j hj0 hjn
          by_cases hjn' : j = n
          · exact ⟨_, by rw [hjn', cacheFind, if_pos rfl]⟩
          · refine cacheHas_cons _ ?_
            by_cases h3 : 3 ≤ n
            · exact cacheHas_preserved _ (hcov1 (by omega) j hj0 (by omega))
            · have hn2 : n = 2 := by omega
              have hj01 : j = 0 ∨ j = 1 := by omega
              rcases hj01 with rfl | rfl
              · have h0 : (2 : Int) - 2 = 0 := by norm_num
                subst hn2
                rw [← h0] at *
                exact fib_cached_has_self _ _
              · subst hn2
                have h1 := fib_cached_has_self c (2 - 1)
                have : ((2 : Int) - 1) = 1 := by norm_num
                rw [this] at h1
                exact cacheHas_preserved _ h1
        refine ⟨?_, fun _ => hcov⟩
        intro k hk2 hhk j hj0 hjk
        obtain ⟨w, hw⟩ := hhk
        rw [cacheFind] at hw
        by_cases hnk : n = k
        · exact hcov j hj0 (by omega)
        · rw [if_neg hnk] at hw
          exact cacheHas_cons _ (hcl2 k hk2 ⟨w, hw⟩ j hj0 hjk)

theorem fib_cached_closed (c : List (Int × Int)) (n : Int) (hcl : Closed c) :
    Closed (fibonacci_cached c n).2 ∧
      (2 ≤ n → ∀ j : Int, 0 ≤ j → j ≤ n → cacheHas (fibonacci_cached c n).2 j) :=
  fib_cached_closed_aux n.toNat n rfl c hcl

/-- Caches reachable from process start satisfy the closure invariant. -/
theorem runCalls_closed (ns : List Int) : Closed (runCalls ns) := by
  have h : ∀ c, Closed c → Closed (ns.foldl (fun c n => (fibonacci_cached c n).2) c) := by
    induction ns with
    | nil => exact fun c h => h
    | cons n rest ihr =>
      intro c h
      exact ihr _ (fib_cached_closed c n h).1
  exact h [] (by intro k hk2 hhk; exact absurd hhk.choose_spec (by simp [cacheFind]))

theorem listSet_of_lt {l : List Bool} {i : Nat} (h : i < l.length) (b : Bool) :
    listSet l i b = some (l.set i b) := by
  rw [listSet, if_pos h]

theorem pyRange_mem {a b j : Nat} : j ∈ pyRange a b ↔ a ≤ j ∧ j < b := by
  rw [pyRange, List.mem_range'_1]
  omega

/-- The marking range `range(i*i, limit + 1, i)` holds exactly the
multiples of `i` between `i * i` and `limit`. -/
theorem pyRangeStep_mem {i limit j : Nat} (hi : 1 ≤ i) :
    j ∈ pyRangeStep (i * i) (limit + 1) i ↔ i ∣ j ∧ i * i ≤ j ∧ j ≤ limit := by
  rw [pyRangeStep, List.mem_range']
  constructor
  · rintro ⟨t, ht, rfl⟩
    refine ⟨⟨i + t, by ring⟩, Nat.le_add_right _ _, ?_⟩
    have h2 : (t + 1) * i ≤ limit + 1 - i * i + i - 1 :=
      (Nat.le_div_iff_mul_le hi).mp ht
    rw [Nat.add_mul, Nat.one_mul, Nat.mul_comm t i] at h2
    generalize hu : i * t = u at *
    generalize hv : i * i = v at *
    omega
  · rintro ⟨⟨q, rfl⟩, hle, hub⟩
    have hq : i ≤ q := Nat.le_of_mul_le_mul_left hle hi
    refine ⟨q - i, ?_, ?_⟩
    · rw [Nat.lt_iff_add_one_le, Nat.le_div_iff_mul_le hi, Nat.add_mul, Nat.one_mul,
        Nat.mul_sub_right_distrib, Nat.mul_comm q i]
      generalize hu : i * q = u at *
      generalize hv : i * i = v at *
      omega
    · rw [Nat.mul_sub_left_distrib]
      generalize hu : i * q = u at *
      generalize hv : i * i = v at *
      omega

theorem markList_length (js : List Nat) : ∀ s : List Bool, (markList s js).length = s.length := by
  induction js with
  | nil => intro s; rfl
  | cons j js ih =>
    intro s
    rw [markList, List.foldl_cons, ← markList, ih]
    exact List.length_set ..

/-- Reading the sieve after the marking pass: an index in the marked list
reads `false`; any other index is unchanged. -/
theorem markList_getD (js : List Nat) : ∀ (s : List Bool) (k : Nat),
    (markList s js).getD k false = if k ∈ js then false else s.getD k false := by
  induction js with
  | nil => intro s k; simp [markList]
  | cons j js ih =>
    intro s k
    rw [markList, List.foldl_cons, ← markList, ih]
    by_cases hks : k ∈ js
    · simp [hks]
    · by_cases hkj : k = j
      · subst hkj
        simp [hks, List.getD_eq_getElem?_getD, List.getElem?_set_self']
        cases s[k]? <;> simp
      · simp [hks, hkj, List.getD_eq_getElem?_getD,
          List.getElem?_set_ne (fun h => hkj h.symm)]

theorem markList_option (js : List Nat) : ∀ s : List Bool, (∀ j ∈ js, j < s.length) →
    js.foldlM (fun t j => listSet t j false) s = some (markList s js) := by
  induction js with
  | nil => intro s _; rfl
  | cons j js ih =>
    intro s hb
    rw [List.foldlM_cons, listSet_of_lt (hb j (List.mem_cons_self _ _))]
    rw [markList, List.foldl_cons, ← markList]
    simp only [Option.bind_eq_bind, Option.some_bind]
    exact ih _ (fun j' hj' => (List.length_set .. ).symm ▸ hb j' (List.mem_cons_of_mem _ hj'))

theorem sieveStepM_eq {limit i : Nat} {s : List Bool} (hlen : s.length = limit + 1)
    (hi1 : 1 ≤ i) (hile : i ≤ limit) :
    sieveStepM limit s i = some (sieveStep limit s i) := by
  have hilen : i < s.length := by omega
  have hget : s.get? i = some (s.getD i false) := by
    rw [List.getD_eq_getElem?_getD, List.get?_eq_getElem?,
      List.getElem?_eq_getElem hilen]
    rfl
  rw [sieveStepM, sieveStep, hget]
  simp only [Option.bind_eq_bind, Option.some_bind]
  by_cases hv : s.getD i false
  · rw [if_pos hv, if_pos hv]
    exact markList_option _ s (fun j hj => by
      have := (pyRangeStep_mem hi1).mp hj
      omega)
  · rw [if_neg hv, if_neg hv]
    rfl

theorem sieve_outer_option (limit : Nat) (is : List Nat) :
    ∀ s : List Bool, s.length = limit + 1 → (∀ i ∈ is, 1 ≤ i ∧ i ≤ limit) →
      is.foldlM (sieveStepM limit) s = some (is.foldl (sieveStep limit) s) := by
  induction is with
  | nil => intro s _ _; rfl
  | cons i is ih =>
    intro s hlen hb
    obtain ⟨hi1, hile⟩ := hb i (List.mem_cons_self _ _)
    rw [List.foldlM_cons, List.foldl_cons, sieveStepM_eq hlen hi1 hile]
    simp only [Option.bind_eq_bind, Option.some_bind]
    have hlen' : (sieveStep limit s i).length = limit + 1 := by
      rw [sieveStep]
      by_cases hv : s.getD i false
      · rw [if_pos hv, markList_length]; exact hlen
      · rw [if_neg hv]; exact hlen
    exact ih _ hlen' (fun i' hi' => hb i' (List.mem_cons_of_mem _ hi'))

/-- For `limit ≥ 1` no index error occurs and `compute_primes` computes
the total sieve followed by the `enumerate` extraction. -/
theorem compute_primes_eq {limit : Nat} (h : 1 ≤ limit) :
    compute_primes limit =
      some (((sieveLoop limit).enum.filter (fun p => p.2)).map (fun p => p.1)) := by
  rw [compute_primes]
  rw [listSet_of_lt (by simp)]
  simp only [Option.bind_eq_bind, Option.some_bind]
  rw [listSet_of_lt (by simp; omega)]
  simp only [Option.some_bind]
  rw [sieve_outer_option limit _ _ (by simp) (fun i hi => by
    have := pyRange_mem.mp hi
    have hs := Nat.sqrt_le_self limit
    omega)]
  simp only [Option.some_bind]
  rw [sieveLoop]
  rfl

example : cacheFind 0 (fibonacci_cached [] 1).2 = none := by
  rw [fibonacci_cached]
  norm_num [cacheFind]

/-- One outer-loop step advances the sieve invariant from bound `m` to
bound `m + 1`. -/
theorem sieveStep_inv {limit m : Nat} {s : List Bool} (_hlen : s.length = limit + 1)
    (hm : 1 ≤ m)
    (hInv : ∀ k, k ≤ limit → (s.getD k false = true ↔ NoBad m k)) :
    ∀ k, k ≤ limit → ((sieveStep limit s (m + 1)).getD k false = true ↔ NoBad (m + 1) k) := by
  intro k hk
  have hi2 : 2 ≤ m + 1 := by omega
  rw [sieveStep]
  have hmem : ∀ j, j ∈ pyRangeStep ((m + 1) * (m + 1)) (limit + 1) (m + 1) ↔
      (m + 1) ∣ j ∧ (m + 1) * (m + 1) ≤ j ∧ j ≤ limit :=
    fun j => pyRangeStep_mem (by omega)
  by_cases hv : s.getD (m + 1) false = true
  · rw [if_pos hv, markList_getD]
    by_cases hkm : k ∈ pyRangeStep ((m + 1) * (m + 1)) (limit + 1) (m + 1)
    · rw [if_pos hkm]
      obtain ⟨hdvd, hsq, _⟩ := (hmem k).mp hkm
      constructor
      · intro hfalse; exact absurd hfalse (by simp)
      · intro hnb; exact (hnb.2 (m + 1) hi2 le_rfl hdvd hsq).elim
    · rw [if_neg hkm, hInv k hk]
      constructor
      · rintro ⟨hk2, hnd⟩
        refine ⟨hk2, fun d hd2 hdm1 hdvd hsq => ?_⟩
        by_cases hdm : d ≤ m
        · exact hnd d hd2 hdm hdvd hsq
        · have hdeq : d = m + 1 := by omega
          subst hdeq
          exact hkm ((hmem k).mpr ⟨hdvd, hsq, hk⟩)
      · rintro ⟨hk2, hnd⟩
        exact ⟨hk2, fun d hd2 hdm hdvd hsq => hnd d hd2 (by omega) hdvd hsq⟩
  · rw [if_neg hv, hInv k hk]
    constructor
    · rintro ⟨hk2, hnd⟩
      refine ⟨hk2, fun d hd2 hdm1 hdvd hsq => ?_⟩
      by_cases hdm : d ≤ m
      · exact hnd d hd2 hdm hdvd hsq
      · have hdeq : d = m + 1 := by omega
        subst hdeq
        have hself : m + 1 ≤ (m + 1) * (m + 1) := Nat.le_mul_of_pos_left _ (by omega)
        by_cases hmlim : m + 1 ≤ limit
        · have hnotnb : ¬ NoBad m (m + 1) := fun hnb => hv ((hInv (m + 1) hmlim).mpr hnb)
          rw [NoBad] at hnotnb
          push_neg at hnotnb
          obtain ⟨e, he2, hem, hedvd, hesq⟩ := hnotnb hi2
          exact hnd e he2 hem (hedvd.trans hdvd) (le_trans hesq (le_trans hself hsq))
        · omega
    · rintro ⟨hk2, hnd⟩
      exact ⟨hk2, fun d hd2 hdm hdvd hsq => hnd d hd2 (by omega) hdvd hsq⟩

theorem sieve_fold_inv (limit : Nat) : ∀ (t a : Nat) (s : List Bool), 2 ≤ a →
    s.length = limit + 1 →
    (∀ k, k ≤ limit → (s.getD k false = true ↔ NoBad (a - 1) k)) →
    ∀ k, k ≤ limit →
      (((List.range' a t).foldl (sieveStep limit) s).getD k false = true ↔
        NoBad (a - 1 + t) k) := by
  intro t
  induction t with
  | zero =>
    intro a s _ _ hInv k hk
    simpa using hInv k hk
  | succ t iht =>
    intro a s ha hlen hInv k hk
    rw [List.range'_succ, List.foldl_cons]
    have hstep := sieveStep_inv hlen (m := a - 1) (by omega)
      hInv
    have hstep' : ∀ k, k ≤ limit →
        ((sieveStep limit s a).getD k false = true ↔ NoBad a k) := by
      have haa : a - 1 + 1 = a := by omega
      rw [← haa]
      exact fun k hk => hstep k hk
    have hlen' : (sieveStep limit s a).length = limit + 1 := by
      rw [sieveStep]
      by_cases hv : s.getD a false = true
      · rw [if_pos hv, markList_length]; exact hlen
      · rw [if_neg hv]; exact hlen
    have := iht (a + 1) (sieveStep limit s a) (by omega) hlen'
      (by simpa using hstep') k hk
    have harith : a + 1 - 1 + t = a - 1 + (t + 1) := by omega
    rw [harith] at this
    exact this

/-- After the whole loop, a surviving flag at `k ≤ limit` means exactly:
`k ≥ 2` and `k` has no divisor `d ∈ [2, √limit]` with `d * d ≤ k`. -/
theorem sieveLoop_inv {limit : Nat} (h : 1 ≤ limit) :
    ∀ k, k ≤ limit →
      ((sieveLoop limit).getD k false = true ↔ NoBad (Nat.sqrt limit) k) := by
  have hs1 : 1 ≤ Nat.sqrt limit := Nat.le_sqrt.mpr (by omega)
  have hinit : ∀ k, k ≤ limit →
      ((((List.replicate (limit + 1) true).set 0 false).set 1 false).getD k false = true ↔
        NoBad 1 k) := by
    intro k hk
    have hknb : NoBad 1 k ↔ 2 ≤ k := by
      constructor
      · exact fun hnb => hnb.1
      · exact fun h2 => ⟨h2, fun d hd2 hdm _ _ => by omega⟩
    rw [hknb]
    match k with
    | 0 =>
      rw [List.getD_eq_getElem?_getD,
        List.getElem?_set_ne (by omega), List.getElem?_set_self (by simp)]
      simp
    | 1 =>
      rw [List.getD_eq_getElem?_getD, List.getElem?_set_self (by simp; omega)]
      simp
    | (k + 2) =>
      rw [List.getD_eq_getElem?_getD,
        List.getElem?_set_ne (by omega), List.getElem?_set_ne (by omega),
        List.getElem?_replicate_of_lt (by omega)]
      simp
  have hlen : (((List.replicate (limit + 1) true).set 0 false).set 1 false).length =
      limit + 1 := by simp
  intro k hk
  rw [sieveLoop, pyRange]
  have := sieve_fold_inv limit (Nat.sqrt limit + 1 - 2) 2 _ le_rfl hlen hinit k hk
  have harith : 2 - 1 + (Nat.sqrt limit + 1 - 2) = Nat.sqrt limit := by omega
  rw [harith] at this
  exact this

/-- The sieve invariant at bound `√limit` characterises primality. -/
theorem noBad_sqrt_iff_prime {limit k : Nat} (hk : k ≤ limit) :
    NoBad (Nat.sqrt limit) k ↔ k.Prime := by
  constructor
  · rintro ⟨hk2, hnd⟩
    by_contra hnp
    have hmfp := Nat.minFac_prime (show k ≠ 1 by omega)
    have hsq : k.minFac ^ 2 ≤ k := Nat.minFac_sq_le_self (by omega) hnp
    rw [Nat.pow_two] at hsq
    have hle : k.minFac ≤ Nat.sqrt limit :=
      Nat.le_sqrt.mpr (le_trans hsq hk)
    exact hnd k.minFac hmfp.two_le hle (Nat.minFac_dvd k) hsq
  · intro hp
    refine ⟨hp.two_le, fun d hd2 hdm hdvd hsq => ?_⟩
    rcases hp.eq_one_or_self_of_dvd d hdvd with h1 | hk'
    · omega
    · subst hk'
      have h2 : d * 2 ≤ d * d := Nat.mul_le_mul_left _ hd2
      generalize d * d = u at *
      omega

theorem mem_enum_extract {l : List Bool} {p : Nat} :
    p ∈ (l.enum.filter (fun x => x.2)).map (fun x => x.1) ↔ l[p]? = some true := by
  rw [List.mem_map]
  constructor
  · rintro ⟨x, hx, rfl⟩
    obtain ⟨hxe, hxt⟩ := List.mem_filter.mp hx
    have hget := List.mem_enum_iff_getElem?.mp hxe
    rwa [show x.2 = true from hxt] at hget
  · intro hp
    exact ⟨(p, true), List.mem_filter.mpr ⟨List.mem_enum_iff_getElem?.mpr hp, rfl⟩, rfl⟩

theorem sorted_enum_extract (l : List Bool) :
    List.Sorted (· < ·) ((l.enum.filter (fun x => x.2)).map (fun x => x.1)) := by
  have hsub : ((l.enum.filter (fun x => x.2)).map (fun x => x.1)).Sublist
      (l.enum.map (fun x => x.1)) :=
    (List.filter_sublist _).map _
  have heq : l.enum.map (fun x => x.1) = List.range l.length := List.enum_map_fst l
  rw [heq] at hsub
  exact (List.sorted_lt_range _).sublist hsub

theorem getElem?_eq_some_true_iff {l : List Bool} {p : Nat} :
    l[p]? = some true ↔ p < l.length ∧ l.getD p false = true := by
  rw [List.getD_eq_getElem?_getD]
  constructor
  · intro h
    have hlt : p < l.length := by
      by_contra hge
      rw [List.getElem?_eq_none (by omega)] at h
      exact Option.noConfusion h
    exact ⟨hlt, by rw [h]; rfl⟩
  · rintro ⟨hlt, hgd⟩
    rw [List.getElem?_eq_getElem hlt] at hgd ⊢
    simpa using hgd

theorem sieveLoop_length (limit : Nat) : (sieveLoop limit).length = limit + 1 := by
  rw [sieveLoop]
  have h : ∀ (is : List Nat) (s : List Bool),
      (is.foldl (sieveStep limit) s).length = s.length := by
    intro is
    induction is with
    | nil => intro s; rfl
    | cons i is ih =>
      intro s
      rw [List.foldl_cons, ih, sieveStep]
      by_cases hv : s.getD i false = true
      · rw [if_pos hv, markList_length]
      · rw [if_neg hv]
  rw [h]
  simp

/-- General correctness of `compute_primes` whenever it returns. -/
theorem compute_primes_correct {limit : Nat} {l : List Nat}
    (hl : compute_primes limit = some l) :
    List.Sorted (· < ·) l ∧ ∀ p, p ∈ l ↔ p.Prime ∧ p ≤ limit := by
  by_cases h0 : 1 ≤ limit
  · rw [compute_primes_eq h0] at hl
    have hll := Option.some_inj.mp hl
    subst hll
    constructor
    · exact sorted_enum_extract _
    · intro p
      rw [mem_enum_extract, getElem?_eq_some_true_iff, sieveLoop_length]
      constructor
      · rintro ⟨hlt, hgd⟩
        have hple : p ≤ limit := by omega
        exact ⟨(noBad_sqrt_iff_prime hple).mp ((sieveLoop_inv h0 p hple).mp hgd), hple⟩
      · rintro ⟨hp, hple⟩
        exact ⟨by omega, (sieveLoop_inv h0 p hple).mpr ((noBad_sqrt_iff_prime hple).mpr hp)⟩
  · exfalso
    have hz : limit = 0 := by omega
    subst hz
    rw [show compute_primes 0 = none by decide] at hl
    exact Option.noConfusion hl

theorem compute_primes_30 :
    compute_primes 30 = some [2, 3, 5, 7, 11, 13, 17, 19, 23, 29] := by
  have h30 : Nat.sqrt 30 = 5 := by
    rw [show (30 : Nat) = 5 * 5 + 5 by norm_num]
    exact Nat.sqrt_add_eq 5 (by norm_num)
  simp only [compute_primes, h30]
  decide

theorem compute_primes_2 : compute_primes 2 = some [2] := by
  have h2 : Nat.sqrt 2 = 1 := by
    rw [show (2 : Nat) = 1 * 1 + 1 by norm_num]
    exact Nat.sqrt_add_eq 1 (by norm_num)
  simp only [compute_primes, h2]
  decide

theorem compute_primes_1 : compute_primes 1 = some [] := by
  simp only [compute_primes, Nat.sqrt_one]
  decide

theorem matrix_multiplication_length {size : Nat} {rand : Nat → ℚ} :
    (matrix_multiplication size rand).length = size ∧
      ∀ row ∈ matrix_multiplication size rand, row.length = size := by
  constructor
  · simp [matrix_multiplication]
  · intro row hrow
    rw [matrix_multiplication] at hrow
    simp only [List.mem_map] at hrow
    obtain ⟨i, _, rfl⟩ := hrow
    simp

theorem matrix_multiplication_one (rand : Nat → ℚ) :
    matrix_multiplication 1 rand = [[rand 0 * rand 1]] := by
  simp [matrix_multiplication, List.range_succ]

theorem json_processing_returns (scores : Nat → Nat → Int) :
    json_processing scores = 1000 := by
  simp [json_processing, mkUsers]

theorem stringMk_data : ∀ s : String, String.mk s.data = s
  | ⟨_⟩ => rfl

theorem digitChar_isDigit {m : Nat} (h : m < 10) :
    (Nat.digitChar m).isDigit = true := by
  interval_cases m <;> decide

theorem digitChar_val {m : Nat} (h : m < 10) :
    (Nat.digitChar m).toNat - 48 = m := by
  interval_cases m <;> decide

theorem natChars_ne_nil (n : Nat) : natChars n ≠ [] := by
  rw [natChars]
  by_cases h : n < 10
  · simp [h]
  · simp [h]

theorem natChars_digits (n : Nat) : ∀ c ∈ natChars n, c.isDigit = true := by
  induction n using Nat.strong_induction_on with
  | _ n ih =>
    rw [natChars]
    by_cases h : n < 10
    · simp only [h, dif_pos]
      intro c hc
      rw [List.mem_singleton] at hc
      subst hc
      exact digitChar_isDigit h
    · simp only [h, dif_neg]
      intro c hc
      rcases List.mem_append.mp hc with hc | hc
      · exact ih (n / 10) (Nat.div_lt_self (by omega) (by norm_num)) c hc
      · rw [List.mem_singleton] at hc
        subst hc
        exact digitChar_isDigit (Nat.mod_lt _ (by norm_num))

/-- The digit string of `n` folds back to `n` (with an arbitrary
accumulator on the left). -/
theorem natChars_foldl (n : Nat) : ∀ acc : Nat,
    (natChars n).foldl (fun a c => a * 10 + (c.toNat - 48)) acc =
      acc * 10 ^ (natChars n).length + n := by
  induction n using Nat.strong_induction_on with
  | _ n ih =>
    intro acc
    rw [natChars]
    by_cases h : n < 10
    · rw [dif_pos h]
      simp only [List.foldl_cons, List.foldl_nil, List.length_singleton]
      rw [digitChar_val h]
      ring
    · rw [dif_neg h]
      simp only [List.foldl_append, List.foldl_cons, List.foldl_nil,
        List.length_append, List.length_singleton]
      rw [ih (n / 10) (Nat.div_lt_self (by omega) (by norm_num)) acc,
        digitChar_val (Nat.mod_lt _ (by norm_num))]
      have hn : n / 10 * 10 + n % 10 = n := by
        have := Nat.div_add_mod n 10
        omega
      rw [pow_succ]
      ring_nf
      omega

theorem parseDigits_spec : ∀ (ds rest : List Char) (acc : Nat),
    (∀ c ∈ ds, c.isDigit = true) →
    (∀ c, rest.head? = some c → c.isDigit = false) →
    parseDigits (ds ++ rest) acc =
      (ds.foldl (fun a c => a * 10 + (c.toNat - 48)) acc, rest) := by
  intro ds
  induction ds with
  | nil =>
    intro rest acc _ hrest
    cases rest with
    | nil => rfl
    | cons c cs =>
      rw [List.nil_append, parseDigits, if_neg (by simp [hrest c rfl])]
      rfl
  | cons d ds ih =>
    intro rest acc hds hrest
    rw [List.cons_append, parseDigits,
      if_pos (hds d (List.mem_cons_self _ _)), List.foldl_cons]
    exact ih rest _ (fun c hc => hds c (List.mem_cons_of_mem _ hc)) hrest

/-- Parsing the printed digits of `n` (first digit consumed by the
dispatcher, the rest by `parseDigits`) recovers exactly `n`. -/
theorem parse_natChars (n : Nat) (rest : List Char)
    (hrest : ∀ c, rest.head? = some c → c.isDigit = false) :
    ∃ d ds, natChars n = d :: ds ∧ d.isDigit = true ∧
      parseDigits (ds ++ rest) (d.toNat - 48) = (n, rest) := by
  obtain ⟨d, ds, hnd⟩ : ∃ d ds, natChars n = d :: ds := by
    cases h : natChars n with
    | nil => exact absurd h (natChars_ne_nil n)
    | cons d ds => exact ⟨d, ds, rfl⟩
  refine ⟨d, ds, hnd, natChars_digits n d (by rw [hnd]; exact List.mem_cons_self _ _), ?_⟩
  rw [parseDigits_spec ds rest _ (fun c hc => natChars_digits n c (by rw [hnd]; exact List.mem_cons_of_mem _ hc)) hrest]
  have h0 := natChars_foldl n 0
  rw [hnd, List.foldl_cons] at h0
  simp only [Nat.zero_mul, Nat.zero_add] at h0
  rw [h0]

theorem skipWs_not_ws {c : Char} {cs : List Char} (h : isWs c = false) :
    skipWs (c :: cs) = c :: cs := by
  rw [skipWs, h]
  simp

theorem skipWs_cons_ws {c : Char} {cs : List Char} (h : isWs c = true) :
    skipWs (c :: cs) = skipWs cs := by
  rw [skipWs, h]
  simp

theorem parseStrBody_spec : ∀ (scs rest : List Char), (∀ c ∈ scs, SafeChar c) →
    parseStrBody (scs ++ '"' :: rest) = some (scs, rest) := by
  intro scs
  induction scs with
  | nil => intro rest _; rw [List.nil_append, parseStrBody, if_pos rfl]
  | cons c cs ih =>
    intro rest hsafe
    obtain ⟨hq, hb⟩ := hsafe c (List.mem_cons_self _ _)
    rw [List.cons_append, parseStrBody, if_neg hq, if_neg hb,
      ih rest (fun c' hc' => hsafe c' (List.mem_cons_of_mem _ hc'))]
    rfl

theorem isDigit_not_ws {c : Char} (h : c.isDigit = true) : isWs c = false := by
  cases hws : isWs c
  · rfl
  · exfalso
    rw [isWs] at hws
    simp only [Bool.or_eq_true, decide_eq_true_eq] at hws
    rcases hws with ((rfl | rfl) | rfl) | rfl <;> exact absurd h (by decide)

theorem isDigit_ne {c c' : Char} (h : c.isDigit = true) (h' : c'.isDigit = false) :
    c ≠ c' := by
  intro hc
  rw [hc, h'] at h
  exact Bool.noConfusion h

theorem parseVal_congr {F : Nat} {cs₁ cs₂ : List Char} (h : skipWs cs₁ = skipWs cs₂) :
    parseVal F cs₁ = parseVal F cs₂ := by
  cases F with
  | zero => rfl
  | succ F => rw [parseVal, parseVal, h]

theorem parseField_congr {F : Nat} {cs₁ cs₂ : List Char} (h : skipWs cs₁ = skipWs cs₂) :
    parseField F cs₁ = parseField F cs₂ := by
  cases F with
  | zero => rfl
  | succ F => rw [parseField, parseField, h]

theorem arrRest_head_not_digit (es : List Json) (rest : List Char) :
    ∀ c, (arrRest es ++ ']' :: rest).head? = some c → c.isDigit = false := by
  cases es with
  | nil =>
    intro c hc
    rw [arrRest, List.nil_append, List.head?_cons, Option.some_inj] at hc
    subst hc
    decide
  | cons e es =>
    intro c hc
    rw [arrRest, List.cons_append, List.head?_cons, Option.some_inj] at hc
    subst hc
    decide

theorem objRest_head_not_digit (fs : List (String × Json)) (rest : List Char) :
    ∀ c, (objRest fs ++ '\x7d' :: rest).head? = some c → c.isDigit = false := by
  cases fs with
  | nil =>
    intro c hc
    rw [objRest, List.nil_append, List.head?_cons, Option.some_inj] at hc
    subst hc
    decide
  | cons f fs =>
    intro c hc
    rw [objRest, List.cons_append, List.head?_cons, Option.some_inj] at hc
    subst hc
    decide

/-- Every printed JSON value starts with a non-whitespace character that
is not a closing bracket. -/
theorem jsonChars_head (v : Json) :
    ∃ c cs', jsonChars v = c :: cs' ∧ isWs c = false ∧ c ≠ ']' := by
  cases v with
  | num n =>
    rw [jsonChars, intChars]
    by_cases hn : n < 0
    · rw [if_pos hn]
      exact ⟨'-', _, rfl, by decide, by decide⟩
    · rw [if_neg hn]
      obtain ⟨d, ds, hnd⟩ : ∃ d ds, natChars n.toNat = d :: ds := by
        cases h : natChars n.toNat with
        | nil => exact absurd h (natChars_ne_nil _)
        | cons d ds => exact ⟨d, ds, rfl⟩
      have hd : d.isDigit = true :=
        natChars_digits _ d (by rw [hnd]; exact List.mem_cons_self _ _)
      exact ⟨d, ds, hnd, isDigit_not_ws hd, isDigit_ne hd (by decide)⟩
  | str s =>
    exact ⟨'"', s.data ++ ['"'], by rw [jsonChars, strChars, List.cons_append],
      by decide, by decide⟩
  | arr es =>
    cases es with
    | nil => exact ⟨'[', [']'], by rw [jsonChars], by decide, by decide⟩
    | cons e es =>
      exact ⟨'[', (jsonChars e ++ arrRest es) ++ [']'],
        by rw [jsonChars, List.cons_append], by decide, by decide⟩
  | obj fs =>
    cases fs with
    | nil => exact ⟨'\x7b', ['\x7d'], by rw [jsonChars], by decide, by decide⟩
    | cons f fs =>
      exact ⟨'\x7b', (fieldChars f ++ objRest fs) ++ ['\x7d'],
        by rw [jsonChars, List.cons_append], by decide, by decide⟩

theorem jsonSize_pos : ∀ v : Json, 1 ≤ jsonSize v := by
  intro v
  cases v
  all_goals simp only [jsonSize]
  all_goals omega

theorem arrSize_pos : ∀ es : List Json, 1 ≤ arrSize es := by
  intro es
  cases es
  all_goals simp only [arrSize]
  all_goals omega

theorem objSize_pos : ∀ fs : List (String × Json), 1 ≤ objSize fs := by
  intro fs
  cases fs
  all_goals simp only [objSize]
  all_goals omega

theorem parseVal_cons {F : Nat} {c : Char} {cs : List Char} (h : isWs c = false) :
    parseVal (F + 1) (c :: cs) =
      if c = '"' then
        (parseStrBody cs).map fun r => (Json.str (String.mk r.1), r.2)
      else if c = '[' then parseArrStart F (skipWs cs)
      else if c = '\x7b' then parseObjStart F (skipWs cs)
      else if c = '-' then parseNeg cs
      else if c.isDigit then
        let r := parseDigits cs (c.toNat - 48)
        some (Json.num (r.1 : Int), r.2)
      else none := by
  rw [parseVal, skipWs_not_ws h]

theorem parseArrStart_cons {F : Nat} {c : Char} {cs : List Char} :
    parseArrStart (F + 1) (c :: cs) =
      if c = ']' then some (Json.arr [], cs)
      else
        (parseVal F (c :: cs)).bind fun r =>
          (parseArrRest F r.2).map fun r' => (Json.arr (r.1 :: r'.1), r'.2) := by
  rw [parseArrStart]

theorem parseArrRest_cons {F : Nat} {c : Char} {cs : List Char} (h : isWs c = false) :
    parseArrRest (F + 1) (c :: cs) =
      if c = ']' then some ([], cs)
      else if c = ',' then
        (parseVal F cs).bind fun r =>
          (parseArrRest F r.2).map fun r' => (r.1 :: r'.1, r'.2)
      else none := by
  rw [parseArrRest, skipWs_not_ws h]

theorem parseObjStart_cons {F : Nat} {c : Char} {cs : List Char} :
    parseObjStart (F + 1) (c :: cs) =
      if c = '\x7d' then some (Json.obj [], cs)
      else
        (parseField F (c :: cs)).bind fun r =>
          (parseObjRest F r.2).map fun r' => (Json.obj (r.1 :: r'.1), r'.2) := by
  rw [parseObjStart]

theorem parseField_cons {F : Nat} {c : Char} {cs : List Char} (h : isWs c = false) :
    parseField (F + 1) (c :: cs) =
      if c = '"' then
        (parseStrBody cs).bind fun rk =>
          (parseColonVal F (skipWs rk.2)).map fun rv =>
            ((String.mk rk.1, rv.1), rv.2)
      else none := by
  rw [parseField, skipWs_not_ws h]

theorem parseColonVal_cons {F : Nat} {c : Char} {cs : List Char} :
    parseColonVal (F + 1) (c :: cs) = if c = ':' then parseVal F cs else none := by
  rw [parseColonVal]

theorem parseObjRest_cons {F : Nat} {c : Char} {cs : List Char} (h : isWs c = false) :
    parseObjRest (F + 1) (c :: cs) =
      if c = '\x7d' then some ([], cs)
      else if c = ',' then
        (parseField F cs).bind fun r =>
          (parseObjRest F r.2).map fun r' => (r.1 :: r'.1, r'.2)
      else none := by
  rw [parseObjRest, skipWs_not_ws h]

/-- The parser inverts the printer: with enough fuel, parsing the
printed characters of a well-formed value (followed by anything that
cannot extend a number literal) returns exactly that value and the
trailing characters.  The three companion statements handle array
tails, object tails and single fields. -/
theorem parse_print : ∀ fuel : Nat,
    (∀ (v : Json) (rest : List Char), JsonWF v → NumFollow v rest → jsonSize v < fuel →
      parseVal fuel (jsonChars v ++ rest) = some (v, rest)) ∧
    (∀ (es : List Json) (rest : List Char), (∀ e ∈ es, JsonWF e) → arrSize es < fuel →
      parseArrRest fuel (arrRest es ++ ']' :: rest) = some (es, rest)) ∧
    (∀ (fs : List (String × Json)) (rest : List Char),
      (∀ f ∈ fs, ∀ c ∈ f.1.data, SafeChar c) → (∀ f ∈ fs, JsonWF f.2) →
      objSize fs < fuel →
      parseObjRest fuel (objRest fs ++ '\x7d' :: rest) = some (fs, rest)) ∧
    (∀ (k : String) (v : Json) (rest : List Char), (∀ c ∈ k.data, SafeChar c) →
      JsonWF v → NumFollow v rest → jsonSize v + 2 < fuel →
      parseField fuel (fieldChars (k, v) ++ rest) = some ((k, v), rest)) := by
  intro fuel
  induction fuel using Nat.strong_induction_on with
  | _ fuel ih =>
    cases fuel with
    | zero =>
      exact ⟨fun v _ _ _ h => absurd h (by omega),
        fun es _ _ h => absurd h (by omega),
        fun fs _ _ _ h => absurd h (by omega),
        fun k v _ _ _ _ h => absurd h (by omega)⟩
    | succ F =>
      refine ⟨?_, ?_, ?_, ?_⟩
      · intro v rest hwf hnf hsize
        cases hwf with
        | num n =>
          rw [jsonChars, intChars]
          by_cases hneg : n < 0
          · rw [if_pos hneg]
            obtain ⟨d, ds, hnd, hdig, hparse⟩ :=
              parse_natChars (-n).toNat rest (fun c hc => hnf n rfl c hc)
            rw [hnd, List.cons_append, List.cons_append,
              parseVal_cons (by decide), if_neg (by decide), if_neg (by decide),
              if_neg (by decide), if_pos rfl, parseNeg, if_pos hdig]
            simp only [hparse]
            rw [Int.toNat_of_nonneg (by omega : (0 : Int) ≤ -n), neg_neg]
          · rw [if_neg hneg]
            obtain ⟨d, ds, hnd, hdig, hparse⟩ :=
              parse_natChars n.toNat rest (fun c hc => hnf n rfl c hc)
            rw [hnd, List.cons_append,
              parseVal_cons (isDigit_not_ws hdig),
              if_neg (isDigit_ne hdig (by decide)), if_neg (isDigit_ne hdig (by decide)),
              if_neg (isDigit_ne hdig (by decide)), if_neg (isDigit_ne hdig (by decide)),
              if_pos hdig]
            simp only [hparse]
            rw [Int.toNat_of_nonneg (by omega : (0 : Int) ≤ n)]
        | str s hs =>
          have hchars : jsonChars (.str s) ++ rest = '"' :: (s.data ++ ('"' :: rest)) := by
            rw [jsonChars, strChars]
            simp [List.cons_append, List.append_assoc]
          rw [hchars, parseVal_cons (by decide), if_pos rfl,
            parseStrBody_spec s.data rest hs]
          show some (Json.str (String.mk s.data), rest) = some (Json.str s, rest)
          rw [stringMk_data]
        | arr es hes =>
          cases es with
          | nil =>
            have hchars : jsonChars (.arr []) ++ rest = '[' :: (']' :: rest) := by
              rw [jsonChars]
              rfl
            rw [hchars, parseVal_cons (by decide), if_neg (by decide), if_pos rfl,
              skipWs_not_ws (by decide)]
            have hF : 3 ≤ F := by
              rw [jsonSize, arrSize] at hsize
              omega
            obtain ⟨F', rfl⟩ : ∃ F', F = F' + 1 := ⟨F - 1, by omega⟩
            rw [parseArrStart_cons, if_pos rfl]
          | cons e es =>
            have hchars : jsonChars (.arr (e :: es)) ++ rest =
                '[' :: (jsonChars e ++ (arrRest es ++ (']' :: rest))) := by
              rw [jsonChars]
              simp [List.cons_append, List.append_assoc]
            rw [hchars, parseVal_cons (by decide), if_neg (by decide), if_pos rfl]
            have hsz : jsonSize e + arrSize es + 3 < F + 1 := by
              rw [jsonSize, arrSize] at hsize
              omega
            have he1 := jsonSize_pos e
            have he2 := arrSize_pos es
            obtain ⟨F', rfl⟩ : ∃ F', F = F' + 1 := ⟨F - 1, by omega⟩
            obtain ⟨c0, tl, hh, hws0, hne0⟩ := jsonChars_head e
            rw [hh, List.cons_append, skipWs_not_ws hws0,
              parseArrStart_cons, if_neg hne0, ← List.cons_append, ← hh,
              (ih F' (by omega)).1 e (arrRest es ++ ']' :: rest)
                (hes e (List.mem_cons_self _ _))
                (fun m hm c hc => arrRest_head_not_digit es rest c hc) (by omega)]
            simp only [Option.some_bind]
            rw [(ih F' (by omega)).2.1 es rest
              (fun e' he' => hes e' (List.mem_cons_of_mem _ he')) (by omega)]
            rfl
        | obj fs hks hvs =>
          cases fs with
          | nil =>
            have hchars : jsonChars (.obj []) ++ rest = '\x7b' :: ('\x7d' :: rest) := by
              rw [jsonChars]
              rfl
            rw [hchars, parseVal_cons (by decide), if_neg (by decide), if_neg (by decide),
              if_pos rfl, skipWs_not_ws (by decide)]
            have hF : 3 ≤ F := by
              rw [jsonSize, objSize] at hsize
              omega
            obtain ⟨F', rfl⟩ : ∃ F', F = F' + 1 := ⟨F - 1, by omega⟩
            rw [parseObjStart_cons, if_pos rfl]
          | cons f fs =>
            obtain ⟨k, v⟩ := f
            have hchars : jsonChars (.obj ((k, v) :: fs)) ++ rest =
                '\x7b' :: (fieldChars (k, v) ++ (objRest fs ++ ('\x7d' :: rest))) := by
              rw [jsonChars]
              simp [List.cons_append, List.append_assoc]
            rw [hchars, parseVal_cons (by decide), if_neg (by decide), if_neg (by decide),
              if_pos rfl]
            have hsz : jsonSize v + objSize fs + 5 < F + 1 := by
              simp only [jsonSize, objSize] at hsize
              omega
            have hv1 := jsonSize_pos v
            have ho1 := objSize_pos fs
            obtain ⟨F', rfl⟩ : ∃ F', F = F' + 1 := ⟨F - 1, by omega⟩
            have hfield : fieldChars (k, v) ++ (objRest fs ++ ('\x7d' :: rest)) =
                '"' :: (k.data ++ ('"' :: (':' :: (' ' ::
                  (jsonChars v ++ (objRest fs ++ ('\x7d' :: rest))))))) := by
              rw [fieldChars, strChars]
              simp [List.cons_append, List.append_assoc]
            rw [hfield, skipWs_not_ws (by decide), parseObjStart_cons,
              if_neg (by decide), ← hfield,
              (ih F' (by omega)).2.2.2 k v (objRest fs ++ '\x7d' :: rest)
                (hks (k, v) (List.mem_cons_self _ _)) (hvs (k, v) (List.mem_cons_self _ _))
                (fun m hm c hc => objRest_head_not_digit fs rest c hc) (by omega)]
            simp only [Option.some_bind]
            rw [(ih F' (by omega)).2.2.1 fs rest
              (fun f' hf' => hks f' (List.mem_cons_of_mem _ hf'))
              (fun f' hf' => hvs f' (List.mem_cons_of_mem _ hf')) (by omega)]
            rfl
      · intro es rest hes hsize
        cases es with
        | nil =>
          rw [arrRest, List.nil_append, parseArrRest_cons (by decide), if_pos rfl]
        | cons e es =>
          have hchars : arrRest (e :: es) ++ (']' :: rest) =
              ',' :: (' ' :: (jsonChars e ++ (arrRest es ++ (']' :: rest)))) := by
            rw [arrRest]
            simp [List.cons_append, List.append_assoc]
          have he1 := jsonSize_pos e
          have he2 := arrSize_pos es
          have hsz : 1 + jsonSize e + arrSize es < F + 1 := by
            rw [arrSize] at hsize
            omega
          rw [hchars, parseArrRest_cons (by decide), if_neg (by decide), if_pos rfl,
            parseVal_congr (skipWs_cons_ws (c := ' ') (by decide)),
            (ih F (by omega)).1 e (arrRest es ++ ']' :: rest)
              (hes e (List.mem_cons_self _ _))
              (fun m hm c hc => arrRest_head_not_digit es rest c hc) (by omega)]
          simp only [Option.some_bind]
          rw [(ih F (by omega)).2.1 es rest
            (fun e' he' => hes e' (List.mem_cons_of_mem _ he')) (by omega)]
          rfl
      · intro fs rest hks hvs hsize
        cases fs with
        | nil =>
          rw [objRest, List.nil_append, parseObjRest_cons (by decide), if_pos rfl]
        | cons f fs =>
          obtain ⟨k, v⟩ := f
          have hchars : objRest ((k, v) :: fs) ++ ('\x7d' :: rest) =
              ',' :: (' ' :: (fieldChars (k, v) ++ (objRest fs ++ ('\x7d' :: rest)))) := by
            rw [objRest]
            simp [List.cons_append, List.append_assoc]
          have hv1 := jsonSize_pos v
          have ho1 := objSize_pos fs
          have hsz : 3 + jsonSize v + objSize fs < F + 1 := by
            simp only [objSize] at hsize
            omega
          rw [hchars, parseObjRest_cons (by decide), if_neg (by decide), if_pos rfl,
            parseField_congr (skipWs_cons_ws (c := ' ') (by decide)),
            (ih F (by omega)).2.2.2 k v (objRest fs ++ '\x7d' :: rest)
              (hks (k, v) (List.mem_cons_self _ _)) (hvs (k, v) (List.mem_cons_self _ _))
              (fun m hm c hc => objRest_head_not_digit fs rest c hc) (by omega)]
          simp only [Option.some_bind]
          rw [(ih F (by omega)).2.2.1 fs rest
            (fun f' hf' => hks f' (List.mem_cons_of_mem _ hf'))
            (fun f' hf' => hvs f' (List.mem_cons_of_mem _ hf')) (by omega)]
          rfl
      · intro k v rest hk hwf hnf hsize
        have hfield : fieldChars (k, v) ++ rest =
            '"' :: (k.data ++ ('"' :: (':' :: (' ' :: (jsonChars v ++ rest))))) := by
          rw [fieldChars, strChars]
          simp [List.cons_append, List.append_assoc]
        rw [hfield, parseField_cons (by decide), if_pos rfl,
          parseStrBody_spec k.data _ hk]
        simp only [Option.some_bind]
        rw [skipWs_not_ws (by decide)]
        obtain ⟨F', rfl⟩ : ∃ F', F = F' + 1 := ⟨F - 1, by
          have := jsonSize_pos v
          omega⟩
        rw [parseColonVal_cons, if_pos rfl,
          parseVal_congr (skipWs_cons_ws (c := ' ') (by decide)),
          (ih F' (by omega)).1 v rest hwf hnf (by omega)]
        show some ((String.mk k.data, v), rest) = some ((k, v), rest)
        rw [stringMk_data]

theorem arrRest_bound (es : List Json)
    (h : ∀ e ∈ es, jsonSize e ≤ 2 * (jsonChars e).length + 1) :
    arrSize es ≤ 2 * (arrRest es).length + 1 := by
  induction es with
  | nil => rw [arrSize, arrRest]; simp
  | cons e es ih =>
    rw [arrSize, arrRest]
    have h1 := h e (List.mem_cons_self _ _)
    have h2 := ih (fun e' he' => h e' (List.mem_cons_of_mem _ he'))
    simp only [List.length_cons, List.length_append]
    omega

theorem fieldChars_length (k : String) (v : Json) :
    (fieldChars (k, v)).length = k.data.length + 4 + (jsonChars v).length := by
  rw [fieldChars, strChars]
  simp only [List.length_append, List.length_cons, List.cons_append]
  simp [List.length_append]
  omega

theorem objRest_bound (fs : List (String × Json))
    (h : ∀ f ∈ fs, jsonSize f.2 ≤ 2 * (jsonChars f.2).length + 1) :
    objSize fs ≤ 2 * (objRest fs).length + 1 := by
  induction fs with
  | nil => rw [objSize, objRest]; simp
  | cons f fs ih =>
    obtain ⟨k, v⟩ := f
    have h1 := h (k, v) (List.mem_cons_self _ _)
    have h2 := ih (fun f' hf' => h f' (List.mem_cons_of_mem _ hf'))
    simp only [objSize, objRest, List.length_cons, List.length_append,
      fieldChars_length] at *
    omega

theorem jsonSize_bound (v : Json) : jsonSize v ≤ 2 * (jsonChars v).length + 1 := by
  obtain ⟨m, hm⟩ : ∃ m, sizeOf v = m := ⟨_, rfl⟩
  induction m using Nat.strong_induction_on generalizing v with
  | _ m ih =>
    cases v with
    | num n =>
      rw [jsonSize]
      omega
    | str s =>
      rw [jsonSize]
      omega
    | arr es =>
      have hmem : ∀ e ∈ es, jsonSize e ≤ 2 * (jsonChars e).length + 1 := by
        intro e he
        have hlt : sizeOf e < sizeOf es := List.sizeOf_lt_of_mem he
        have hlt2 : sizeOf es < m := by
          rw [← hm, Json.arr.sizeOf_spec]
          omega
        exact ih (sizeOf e) (by omega) e rfl
      cases es with
      | nil =>
        rw [jsonSize, arrSize, jsonChars]
        simp
      | cons e es =>
        have h1 := hmem e (List.mem_cons_self _ _)
        have h2 := arrRest_bound es (fun e' he' => hmem e' (List.mem_cons_of_mem _ he'))
        rw [jsonSize, arrSize, jsonChars]
        simp only [List.length_append, List.length_cons, List.length_nil]
        omega
    | obj fs =>
      have hmem : ∀ f ∈ fs, jsonSize f.2 ≤ 2 * (jsonChars f.2).length + 1 := by
        intro f hf
        have hlt : sizeOf f < sizeOf fs := List.sizeOf_lt_of_mem hf
        have hlt2 : sizeOf f.2 < sizeOf f := by
          obtain ⟨k, v⟩ := f
          simp only [Prod.mk.sizeOf_spec]
          omega
        have hlt3 : sizeOf fs < m := by
          rw [← hm, Json.obj.sizeOf_spec]
          omega
        exact ih (sizeOf f.2) (by omega) f.2 rfl
      cases fs with
      | nil =>
        rw [jsonSize, objSize, jsonChars]
        simp
      | cons f fs =>
        obtain ⟨k, v⟩ := f
        have h1 := hmem (k, v) (List.mem_cons_self _ _)
        have h2 := objRest_bound fs (fun f' hf' => hmem f' (List.mem_cons_of_mem _ hf'))
        rw [jsonChars]
        simp only [jsonSize, objSize, List.length_append, List.length_cons,
          List.length_singleton, fieldChars_length] at *
        omega

/-- Parsing back the printed form of any well-formed JSON value yields
the value itself: the `json.dumps` / `json.loads` round trip is the
identity on the fragment this program produces. -/
theorem loads_dumps {v : Json} (hwf : JsonWF v) : loads (dumps v) = some v := by
  have hp : parseVal (2 * (jsonChars v).length + 2) (jsonChars v) = some (v, []) := by
    have h := (parse_print (2 * (jsonChars v).length + 2)).1 v [] hwf
      (fun n hn c hc => by simp at hc)
      (by have := jsonSize_bound v; omega)
    rwa [List.append_nil] at h
  rw [loads, show (dumps v).data = jsonChars v from rfl, hp]
  rfl

theorem safeChar_of_isDigit {c : Char} (h : c.isDigit = true) : SafeChar c :=
  ⟨isDigit_ne h (by decide), isDigit_ne h (by decide)⟩

theorem mkName_safe (i : Nat) : ∀ c ∈ (mkName i).data, SafeChar c := by
  intro c hc
  rw [mkName, String.data_append] at hc
  rcases List.mem_append.mp hc with hc | hc
  · exact (by decide : ∀ c ∈ "User_".data, SafeChar c) c hc
  · exact safeChar_of_isDigit (natChars_digits i c hc)

theorem mkEmail_safe (i : Nat) : ∀ c ∈ (mkEmail i).data, SafeChar c := by
  intro c hc
  rw [mkEmail, String.data_append, String.data_append] at hc
  rcases List.mem_append.mp hc with hc | hc
  · rcases List.mem_append.mp hc with hc | hc
    · exact (by decide : ∀ c ∈ "user".data, SafeChar c) c hc
    · exact safeChar_of_isDigit (natChars_digits i c hc)
  · exact (by decide : ∀ c ∈ "@example.com".data, SafeChar c) c hc

theorem dataJson_wf (scores : Nat → Nat → Int) : JsonWF (dataJson scores) := by
  rw [dataJson]
  refine JsonWF.obj _ ?_ ?_
  · intro f hf
    rw [List.mem_singleton] at hf
    subst hf
    exact (by decide : ∀ c ∈ "users".data, SafeChar c)
  · intro f hf
    rw [List.mem_singleton] at hf
    subst hf
    refine JsonWF.arr _ ?_
    intro e he
    obtain ⟨u, hu, rfl⟩ := List.mem_map.mp he
    rw [mkUsers] at hu
    obtain ⟨i, _, rfl⟩ := List.mem_map.mp hu
    rw [recordJson]
    refine JsonWF.obj _ ?_ ?_
    · intro f hf
      simp only [List.mem_cons, List.not_mem_nil, or_false] at hf
      rcases hf with rfl | rfl | rfl | rfl
      · exact (by decide : ∀ c ∈ "id".data, SafeChar c)
      · exact (by decide : ∀ c ∈ "name".data, SafeChar c)
      · exact (by decide : ∀ c ∈ "email".data, SafeChar c)
      · exact (by decide : ∀ c ∈ "scores".data, SafeChar c)
    · intro f hf
      simp only [List.mem_cons, List.not_mem_nil, or_false] at hf
      rcases hf with rfl | rfl | rfl | rfl
      · exact JsonWF.num _
      · exact JsonWF.str _ (mkName_safe i)
      · exact JsonWF.str _ (mkEmail_safe i)
      · refine JsonWF.arr _ ?_
        intro e he
        obtain ⟨s, _, rfl⟩ := List.mem_map.mp he
        exact JsonWF.num _

/-! Claim theorems. -/

/-- C1: for every `limit ≥ 0` on which `compute_primes` returns (it
raises for `limit = 0`, see C2), the result is the strictly ascending
sequence of exactly the primes `≤ limit`; in particular at 30, 2 and 1
it returns `[2,3,5,7,11,13,17,19,23,29]`, `[2]` and `[]`. -/
theorem claim_C1 :
    (∀ (limit : Nat) (l : List Nat), compute_primes limit = some l →
      List.Sorted (· < ·) l ∧ ∀ p, p ∈ l ↔ p.Prime ∧ p ≤ limit) ∧
    compute_primes 30 = some [2, 3, 5, 7, 11, 13, 17, 19, 23, 29] ∧
    compute_primes 2 = some [2] ∧ compute_primes 1 = some [] :=
  ⟨fun _ _ h => compute_primes_correct h,
   compute_primes_30, compute_primes_2, compute_primes_1⟩

theorem claim_C1_witness :
    List.Sorted (· < ·) [2, 3, 5, 7, 11, 13, 17, 19, 23, 29] ∧
      ∀ p, p ∈ [2, 3, 5, 7, 11, 13, 17, 19, 23, 29] ↔ p.Prime ∧ p ≤ 30 :=
  claim_C1.1 30 _ claim_C1.2.1

/-- C2 counterexample: at `limit = 0` the sieve is `[True]` and the
assignment `sieve[1] = False` is out of bounds, so `compute_primes(0)`
raises `IndexError` (modelled as `none`) instead of executing without
error. -/
theorem claim_C2_counterexample : compute_primes 0 = none := by decide

/-- C2 (amended): for every integer `limit ≥ 1` (rather than `≥ 0`),
`compute_primes(limit)` executes without raising any error — every list
index used is in bounds, so it returns a value. -/
theorem claim_C2 : ∀ limit : Nat, 1 ≤ limit → ∃ l, compute_primes limit = some l :=
  fun _ h => ⟨_, compute_primes_eq h⟩

theorem claim_C2_witness : ∃ l, compute_primes 30 = some l :=
  claim_C2 30 (by decide)

/-- C3: for every `n ∈ [0, 30]` the naive and the memoized Fibonacci
agree (the memoized value is taken from any correct cache state — in
particular every state the process can reach), and both satisfy
`F(0) = 0`, `F(1) = 1` and the recurrence for `n ≥ 2`. -/
theorem claim_C3 : ∀ n : Int, 0 ≤ n → n ≤ 30 →
    (∀ c, CacheCorrect c → (fibonacci_cached c n).1 = fibonacci_recursive n) ∧
    fibonacci_recursive 0 = 0 ∧ fibonacci_recursive 1 = 1 ∧
    (2 ≤ n → fibonacci_recursive n =
      fibonacci_recursive (n - 1) + fibonacci_recursive (n - 2)) ∧
    (∀ c, CacheCorrect c → 2 ≤ n →
      (fibonacci_cached c n).1 =
        (fibonacci_cached c (n - 1)).1 + (fibonacci_cached c (n - 2)).1) := by
  intro n _h0 _h30
  refine ⟨fun c hc => (fib_cached_correct c n hc).1,
    fibonacci_recursive_base (by norm_num),
    fibonacci_recursive_base (by norm_num),
    fun h2 => fibonacci_recursive_step (by omega),
    fun c hc h2 => ?_⟩
  rw [(fib_cached_correct c n hc).1, (fib_cached_correct c (n - 1) hc).1,
    (fib_cached_correct c (n - 2) hc).1]
  exact fibonacci_recursive_step (by omega)

theorem claim_C3_witness :
    (fibonacci_cached [] 10).1 = fibonacci_recursive 10 ∧
      fibonacci_recursive 0 = 0 ∧ fibonacci_recursive 1 = 1 :=
  ⟨(claim_C3 10 (by decide) (by decide)).1 [] (by simp [CacheCorrect]),
   (claim_C3 10 (by decide) (by decide)).2.1,
   (claim_C3 10 (by decide) (by decide)).2.2.1⟩

/-- C4: the product matrix always has exactly `size` rows of `size`
columns each, and for `size = 1` the single cell is the product of the
two single random draws (`rand 0` fills `matrix_a`, `rand 1` fills
`matrix_b`). -/
theorem claim_C4 : ∀ size : Nat, 0 < size → ∀ rand : Nat → ℚ,
    ((matrix_multiplication size rand).length = size ∧
      ∀ row ∈ matrix_multiplication size rand, row.length = size) ∧
    (size = 1 → matrix_multiplication size rand = [[rand 0 * rand 1]]) :=
  fun _ _ rand =>
    ⟨matrix_multiplication_length, fun h => by
      subst h; exact matrix_multiplication_one rand⟩

theorem claim_C4_witness :
    ((matrix_multiplication 1 (fun _ => (2 : ℚ))).length = 1 ∧
      ∀ row ∈ matrix_multiplication 1 (fun _ => (2 : ℚ)), row.length = 1) ∧
    (1 = 1 → matrix_multiplication 1 (fun _ => (2 : ℚ)) = [[(2 : ℚ) * 2]]) :=
  claim_C4 1 (by decide) _

/-- C9 counterexample: the claim promises entries for every key of
`[0, n]` after a call with `n ≥ 0`, but after the single call
`fibonacci_cached(1)` from process start the cache is exactly
`{1 ↦ 1}` and key `0` is absent. -/
theorem claim_C9_counterexample :
    (fibonacci_cached (runCalls []) 1).2 = [(1, 1)] ∧
      cacheFind 0 (fibonacci_cached (runCalls []) 1).2 = none := by
  rw [show runCalls [] = [] from rfl]
  constructor
  · rw [fibonacci_cached]
    norm_num [cacheFind]
  · rw [fibonacci_cached]
    norm_num [cacheFind]

/-- C9 (amended): across every sequence of calls the cache's key set
grows monotonically (no entry is ever evicted) and the value stored for
a key never changes once present; after a call `fibonacci_cached(n)`
with `n ≥ 2` the cache contains entries for every key in `[0, n]`, and
after a call with `n ∈ {0, 1}` it contains an entry for `n` itself (but
not necessarily for the other key, see the counterexample). -/
theorem claim_C9 :
    (∀ (c : List (Int × Int)) (n k v : Int), cacheFind k c = some v →
      cacheFind k (fibonacci_cached c n).2 = some v) ∧
    (∀ (ns : List Int) (n : Int), 2 ≤ n → ∀ j : Int, 0 ≤ j → j ≤ n →
      cacheHas (fibonacci_cached (runCalls ns) n).2 j) ∧
    (∀ (ns : List Int) (n : Int), cacheHas (fibonacci_cached (runCalls ns) n).2 n) :=
  ⟨fun c n k v h => fib_cached_preserved c n k v h,
   fun ns n h2 j hj0 hjn =>
     (fib_cached_closed (runCalls ns) n (runCalls_closed ns)).2 h2 j hj0 hjn,
   fun ns n => fib_cached_has_self (runCalls ns) n⟩

theorem claim_C9_witness :
    cacheFind 5 (fibonacci_cached [(5, 999)] 3).2 = some 999 ∧
      cacheHas (fibonacci_cached (runCalls [4]) 3).2 2 ∧
      cacheHas (fibonacci_cached (runCalls []) 0).2 0 :=
  ⟨claim_C9.1 [(5, 999)] 3 5 999 (by decide),
   claim_C9.2.1 [4] 3 (by decide) 2 (by decide) (by decide),
   claim_C9.2.2 [] 0⟩

/-- C10: every negative `n` falls into the `n <= 1` base case before any
recursion, so both functions terminate and return `n` itself (the
memoized one from any correct cache state). -/
theorem claim_C10 : ∀ n : Int, n < 0 →
    fibonacci_recursive n = n ∧
    ∀ c, CacheCorrect c → (fibonacci_cached c n).1 = n := by
  intro n hn
  refine ⟨fibonacci_recursive_base (by omega), fun c hc => ?_⟩
  rw [(fib_cached_correct c n hc).1]
  exact fibonacci_recursive_base (by omega)

theorem claim_C10_witness :
    fibonacci_recursive (-5) = -5 ∧ (fibonacci_cached [] (-5)).1 = -5 :=
  ⟨(claim_C10 (-5) (by decide)).1,
   (claim_C10 (-5) (by decide)).2 [] (by simp [CacheCorrect])⟩

/-- C5: serializing the synthetic record collection with `json.dumps`
and parsing it back with `json.loads` returns the identical collection
value — hence the same record count and, for every record, identical
`id`, `name`, `email` and `scores` field values — for every outcome of
the random score draws. -/
theorem claim_C5 : ∀ scores : Nat → Nat → Int,
    loads (dumps (dataJson scores)) = some (dataJson scores) :=
  fun scores => loads_dumps (dataJson_wf scores)

/-- C6: `json_processing` always returns the record count of the
collection it constructs — the fixed constant 1000 — for every outcome
of the random score draws. -/
theorem claim_C6 : ∀ scores : Nat → Nat → Int, json_processing scores = 1000 :=
  json_processing_returns

/-- C7: one mixed-workload pass invokes naive Fibonacci exactly five
times with arguments 20–24, then the sieve at 10000, matrix
multiplication at 50, string processing, JSON processing and the I/O
simulation once each, in that order, a progress line before each step
and the summary line after; `main` runs this pass plus one
`cpu_intensive_loop` invocation exactly `iterations = 3` times between
its banners. -/
theorem claim_C7 :
    mixed_workload_trace =
      [Event.msg "Starting mixed workload...",
       Event.msg "  Computing Fibonacci numbers...",
       Event.fibonacciCall 20, Event.fibonacciCall 21, Event.fibonacciCall 22,
       Event.fibonacciCall 23, Event.fibonacciCall 24,
       Event.msg "  Computing prime numbers...", Event.primesCall 10000,
       Event.msg "  Performing matrix multiplication...", Event.matmulCall 50,
       Event.msg "  Processing strings...", Event.stringCall,
       Event.msg "  Processing JSON data...", Event.jsonCall,
       Event.msg "  Simulating I/O operations...", Event.ioCall,
       Event.msg summaryLine] ∧
    main_trace =
      [Event.msg (String.mk (List.replicate 60 '=')),
       Event.msg "FLAMEGRAPH PROFILING DEMO APPLICATION",
       Event.msg (String.mk (List.replicate 60 '=')),
       Event.msg "",
       Event.msg "Running 3 iterations of mixed workload...\n"]
      ++ ([Event.msg "\n--- Iteration 1/3 ---"] ++ mixed_workload_trace ++
          [Event.msg "  Running CPU intensive calculations...", Event.cpuLoopCall])
      ++ ([Event.msg "\n--- Iteration 2/3 ---"] ++ mixed_workload_trace ++
          [Event.msg "  Running CPU intensive calculations...", Event.cpuLoopCall])
      ++ ([Event.msg "\n--- Iteration 3/3 ---"] ++ mixed_workload_trace ++
          [Event.msg "  Running CPU intensive calculations...", Event.cpuLoopCall])
      ++ [Event.msg ("\n" ++ String.mk (List.replicate 60 '=')),
          Event.elapsedMsg,
          Event.msg (String.mk (List.replicate 60 '='))] := by
  constructor
  · rw [mixed_workload_trace]
    rfl
  · rw [main_trace, mixed_workload_trace]
    rfl

/-- C8: the trigonometric accumulation loop, generalized to an
arbitrary count, returns 0 for `count = 0` and
`sqrt(0)·sin(0)·cos(0) = 0` for `count = 1`. -/
theorem claim_C8 :
    cpu_intensive_loop 0 = 0 ∧
    cpu_intensive_loop 1 = Real.sqrt 0 * Real.sin 0 * Real.cos 0 ∧
    cpu_intensive_loop 1 = 0 := by
  have h1 : cpu_intensive_loop 1 = Real.sqrt 0 * Real.sin 0 * Real.cos 0 := by
    rw [cpu_intensive_loop, show List.range 1 = [0] from rfl]
    show (0 : ℝ) + Real.sqrt (0 : Nat) * Real.sin (0 : Nat) * Real.cos (0 : Nat) =
      Real.sqrt 0 * Real.sin 0 * Real.cos 0
    norm_num
  exact ⟨by simp [cpu_intensive_loop], h1, by rw [h1]; simp⟩

end App
